import Mathlib

/-! SockTail auth-key obfuscator.

A shallow embedding of `obfuscator/obfuscate_key_hex.go` (package `main`):
the package variable `xorKey`, the function `obfuscateAuthKeyToHex` and the
command-line entry point `main`, followed by the properties proved of them.

Conventions of the embedding

* a Go `byte` is a `Fin 256`; a Go `string` and a `[]byte` are lists of bytes
  (a Go string is an immutable byte sequence, `[]byte(s)` copies its bytes);
* a run-time panic (integer division by zero, index out of range) is an
  `Except.error`; every index expression and every `%` of the source goes
  through a checked operation, so that a result `Except.ok` says that no
  check failed;
* Go's `int` loop counter is a `Nat`: it stays below `len(data)`, which fits
  an `int`, so it never wraps.
-/

namespace SockTail

/-! ## Data model -/

/-- A Go `byte` (`uint8`). -/
abbrev Byte := Fin 256

/-- A Go `string`: an immutable sequence of bytes, not of code points. -/
abbrev GoString := List Byte

/-- The run-time panics the source's expressions can raise. -/
inductive Panic where
  | divideByZero
  | indexOutOfRange
  deriving DecidableEq

deriving instance DecidableEq for Except

/-- UTF-8 encoding of one code point, as the Go compiler stores the
characters of a string literal. -/
def utf8EncodeChar (c : Nat) : List Byte :=
  if c < 0x80 then
    [Fin.ofNat c]
  else if c < 0x800 then
    [Fin.ofNat (0xC0 + c / 0x40), Fin.ofNat (0x80 + c % 0x40)]
  else if c < 0x10000 then
    [Fin.ofNat (0xE0 + c / 0x1000), Fin.ofNat (0x80 + c / 0x40 % 0x40),
      Fin.ofNat (0x80 + c % 0x40)]
  else
    [Fin.ofNat (0xF0 + c / 0x40000), Fin.ofNat (0x80 + c / 0x1000 % 0x40),
      Fin.ofNat (0x80 + c / 0x40 % 0x40), Fin.ofNat (0x80 + c % 0x40)]

/-- The bytes of a Go string literal: `[]byte("...")` and `"..."` itself. -/
def bytesOfLiteral (s : String) : GoString :=
  s.toList.flatMap (fun c => utf8EncodeChar c.toNat)

/-! ## Checked primitive operations -/

/-- Go's `a % b` on non-negative `int`s: panics when `b` is zero. -/
def goMod (a b : Nat) : Except Panic Nat :=
  if b = 0 then Except.error Panic.divideByZero else Except.ok (a % b)

/-- Go's index expression `xs[i]` used as a value: panics out of range. -/
def index {α : Type} (xs : List α) (i : Nat) : Except Panic α :=
  match xs[i]? with
  | some v => Except.ok v
  | none => Except.error Panic.indexOutOfRange

/-- Go's assignment `xs[i] = v` on a slice: panics out of range. -/
def store (xs : List Byte) (i : Nat) (v : Byte) : Except Panic (List Byte) :=
  if i < xs.length then Except.ok (xs.set i v) else Except.error Panic.indexOutOfRange

/-- Go's `make([]byte, n)`: `n` zero bytes. -/
def make (n : Nat) : List Byte :=
  List.replicate n 0

/-! ## Package `encoding/hex` of the Go standard library -/

namespace hex

/-- The digit table of `encoding/hex`: `const hextable = "0123456789abcdef"`. -/
def hextable : GoString :=
  bytesOfLiteral "0123456789abcdef"

/-- Modelled from the spec: the body of `hex.EncodeToString` belongs to Go's
standard library (`encoding/hex`, imported on line 4), not to this repository.
The spec (section 4.1) gives its result: each byte becomes two lowercase hex
digits, most-significant nibble first, concatenated in byte order. The
definition follows the library's loop `dst[j] = hextable[v>>4];
dst[j+1] = hextable[v&0x0f]; j += 2`; both table indexes are below 16. -/
def EncodeToString : List Byte → GoString
  | [] => []
  | v :: rest =>
      hextable.getD (v.val >>> 4) 0 :: hextable.getD (v.val &&& 0x0f) 0 :: EncodeToString rest

/-- Modelled from the spec: the value of one hex digit, for the "hex-decoding"
the round-trip property speaks of (no decoder exists in the source). As in
the library's `reverseHexTable`, upper-case digits are accepted too. -/
def fromHexChar (c : Byte) : Option Nat :=
  if 0x30 ≤ c.val ∧ c.val ≤ 0x39 then some (c.val - 0x30)
  else if 0x61 ≤ c.val ∧ c.val ≤ 0x66 then some (c.val - 0x61 + 10)
  else if 0x41 ≤ c.val ∧ c.val ≤ 0x46 then some (c.val - 0x41 + 10)
  else none

/-- Modelled from the spec: "decoding the hex string back to bytes" (section
8), after the library's `hex.DecodeString`: two digits give one byte, the
first digit being the high nibble; an odd length or a non-digit is an error. -/
def DecodeString : GoString → Option (List Byte)
  | [] => some []
  | [_] => none
  | p :: q :: rest =>
      match fromHexChar p, fromHexChar q, DecodeString rest with
      | some a, some b, some r => some (Fin.ofNat (a * 16 + b) :: r)
      | _, _, _ => none

end hex

/-! ## The program -/

/-- Line 9: `var xorKey = []byte("747sg^8N0$")`, the initial (and, the
program never assigning to it, only) value of the package variable. -/
def xorKey : List Byte :=
  bytesOfLiteral "747sg^8N0$"

/-- Lines 14-16: `for i, b := range data { result[i] = b ^ xorKey[i%len(xorKey)] }`.
The first list is the part of `data` still to be visited, `i` the index of its
head, `result` the slice written so far; `key` is the value of `xorKey`. -/
def xorLoop (key : List Byte) : List Byte → Nat → List Byte → Except Panic (List Byte)
  | [], _, result => Except.ok result
  | b :: rest, i, result =>
      match goMod i key.length with
      | Except.error e => Except.error e
      | Except.ok m =>
        match index key m with
        | Except.error e => Except.error e
        | Except.ok k =>
          match store result i (b ^^^ k) with
          | Except.error e => Except.error e
          | Except.ok result1 => xorLoop key rest (i + 1) result1

/-- Lines 11-18, with the value of the package variable `xorKey` that the
body reads made explicit. -/
def obfuscateAuthKeyToHexIn (key : List Byte) (authKey : GoString) : Except Panic GoString :=
  let data := authKey
  let result := make data.length
  match xorLoop key data 0 result with
  | Except.error e => Except.error e
  | Except.ok result1 => Except.ok (hex.EncodeToString result1)

/-- Lines 11-18: `func obfuscateAuthKeyToHex(key string) string`. -/
def obfuscateAuthKeyToHex (key : GoString) : Except Panic GoString :=
  obfuscateAuthKeyToHexIn xorKey key

/-! ## The command-line entry point -/

namespace fmt

/-- Modelled from the spec: `fmt.Fprintf` belongs to Go's standard library, not
to this repository; the spec (section 6) gives the message as the format with
the program name in the place of `%s`. This is the formatting of a format
string whose verbs are `%s` with string operands (and `%%`): an operand is
written byte for byte, every other byte of the format is copied. A missing
operand is written as the library writes it. -/
def Sprintf : GoString → List GoString → GoString
  | [], _ => []
  | c :: rest, args =>
      if c = 0x25 then
        match rest with
        | [] => bytesOfLiteral "%!(NOVERB)"
        | d :: rest1 =>
            if d = 0x73 then
              match args with
              | a :: args1 => a ++ Sprintf rest1 args1
              | [] => bytesOfLiteral "%!s(MISSING)" ++ Sprintf rest1 []
            else if d = 0x25 then
              0x25 :: Sprintf rest1 args
            else
              c :: d :: Sprintf rest1 args
      else
        c :: Sprintf rest args

end fmt

/-- What a run of the program leaves behind: the bytes written to standard
output and to standard error, the arguments of the calls of
`obfuscateAuthKeyToHex` made (oldest first), and the exit code. -/
structure Process where
  stdout : List Byte
  stderr : List Byte
  calls : List GoString
  exitCode : Nat
  deriving DecidableEq

/-- Lines 20-28: `func main()`, as a function of `os.Args`. `os.Exit(1)` ends
the process at once, so the usage branch does not reach line 26; returning
from `main` ends it with code 0. -/
def main (osArgs : List GoString) : Except Panic Process :=
  if osArgs.length ≠ 2 then
    match index osArgs 0 with
    | Except.error e => Except.error e
    | Except.ok arg0 =>
        Except.ok
          { stdout := [],
            stderr := fmt.Sprintf (bytesOfLiteral "Usage: %s <auth-key>\n") [arg0],
            calls := [],
            exitCode := 1 }
  else
    match index osArgs 1 with
    | Except.error e => Except.error e
    | Except.ok authKey =>
        match obfuscateAuthKeyToHex authKey with
        | Except.error e => Except.error e
        | Except.ok s =>
            Except.ok { stdout := s, stderr := [], calls := [authKey], exitCode := 0 }

/-! ## The spec's words, for comparison with the code -/

namespace Spec

/-- Spec, section 4.1: "each byte becomes two lowercase hex digits": the
lowercase hex digit of a nibble, `'0'..'9'` then `'a'..'f'`. -/
def lowerHexDigit (n : Nat) : Byte :=
  if n < 10 then Fin.ofNat (0x30 + n) else Fin.ofNat (0x61 + (n - 10))

/-- Spec, section 4.1: `output[i] = plaintext[i] XOR key[i mod len(key)]`,
defined where both indexes exist. -/
def outputAt (key plaintext : List Byte) (i : Nat) : Option Byte :=
  match plaintext[i]?, key[i % key.length]? with
  | some b, some k => some (b ^^^ k)
  | _, _ => none

/-- Spec, section 4.1: the obfuscated bytes, one for each index of the
plaintext. -/
def output (key plaintext : List Byte) : List (Option Byte) :=
  (List.range plaintext.length).map (outputAt key plaintext)

/-- Spec, section 4.1: the hex rendering of a byte sequence: for each byte,
the digit of its most-significant nibble, then that of its least-significant
nibble, and nothing else. -/
def hexPairs (bs : List Byte) : GoString :=
  bs.flatMap (fun v => [lowerHexDigit (v.val / 16), lowerHexDigit (v.val % 16)])

end Spec

/-- Closed form of `xorLoop`, used in the proofs: the bytes the loop writes
from index `i` on. -/
def xorFrom (key : List Byte) (i : Nat) : List Byte → List Byte
  | [] => []
  | b :: rest => (b ^^^ key.getD (i % key.length) 0) :: xorFrom key (i + 1) rest

/-! ## The package state across calls -/

/-- The package-level variables of the program. `xorKey` is a `var` holding a
slice, so the language would let a statement assign to it or to its bytes. -/
structure Globals where
  xorKey : List Byte
  deriving DecidableEq

/-- Package initialization (line 9) of a program whose key literal is `lit`:
the conversion `[]byte(lit)` is evaluated and stored in `xorKey`. The line
holds no check of the length, and a conversion does not panic. -/
def initPackage (lit : String) : Except Panic Globals :=
  Except.ok { xorKey := bytesOfLiteral lit }

/-- The package state once the program as written is initialized. -/
def initGlobals : Globals :=
  { xorKey := xorKey }

/-- The variables in scope in the body of `obfuscateAuthKeyToHex`: the package
variable `xorKey` and the locals `data` and `result`. `data` and `result` are
fresh slices (a conversion and a `make`), so they share no memory with
`xorKey` or with each other. -/
structure Vars where
  xorKey : List Byte
  data : List Byte
  result : List Byte
  deriving DecidableEq

/-- Line 15, `result[i] = b ^ xorKey[i%len(xorKey)]`, as a step on the
variables in scope. -/
def loopBody (i : Nat) (b : Byte) (s : Vars) : Except Panic Vars :=
  match goMod i s.xorKey.length with
  | Except.error e => Except.error e
  | Except.ok m =>
    match index s.xorKey m with
    | Except.error e => Except.error e
    | Except.ok k =>
      match store s.result i (b ^^^ k) with
      | Except.error e => Except.error e
      | Except.ok result1 => Except.ok { s with result := result1 }

/-- Lines 14-16 on the variables in scope; the range expression `data` is
evaluated once, before the first iteration. -/
def rangeLoop : List Byte → Nat → Vars → Except Panic Vars
  | [], _, s => Except.ok s
  | b :: rest, i, s =>
      match loopBody i b s with
      | Except.error e => Except.error e
      | Except.ok s1 => rangeLoop rest (i + 1) s1

/-- Lines 11-18 as a step on the package state: one call of
`obfuscateAuthKeyToHex`, giving the string returned and the package state
after the call. -/
def obfuscateAuthKeyToHexSt (g : Globals) (key : GoString) :
    Except Panic (GoString × Globals) :=
  let s0 : Vars := { xorKey := g.xorKey, data := key, result := make key.length }
  match rangeLoop s0.data 0 s0 with
  | Except.error e => Except.error e
  | Except.ok s1 => Except.ok (hex.EncodeToString s1.result, { xorKey := s1.xorKey })

/-- A sequence of calls, one after the other, each starting in the package
state the one before left: the strings returned, in order, and the last
state. -/
def runCalls (g : Globals) : List GoString → Except Panic (List GoString × Globals)
  | [] => Except.ok ([], g)
  | key :: rest =>
      match obfuscateAuthKeyToHexSt g key with
      | Except.error e => Except.error e
      | Except.ok (out, g1) =>
          match runCalls g1 rest with
          | Except.error e => Except.error e
          | Except.ok (outs, g2) => Except.ok (out :: outs, g2)

/-! ## Lemmas -/

theorem xorKey_eq : xorKey = [0x37, 0x34, 0x37, 0x73, 0x67, 0x5e, 0x38, 0x4e, 0x30, 0x24] := by
  decide

theorem xorKey_length : xorKey.length = 10 := by
  decide

theorem hextable_eq : hex.hextable =
    [0x30, 0x31, 0x32, 0x33, 0x34, 0x35, 0x36, 0x37, 0x38, 0x39,
      0x61, 0x62, 0x63, 0x64, 0x65, 0x66] := by
  decide

theorem byte_xor_xor (a k : Byte) : (a ^^^ k) ^^^ k = a := by
  apply Fin.ext
  have h : a.val ^^^ k.val < 256 := @Nat.xor_lt_two_pow _ _ 8 a.isLt k.isLt
  show ((a.val ^^^ k.val) % 256 ^^^ k.val) % 256 = a.val
  rw [Nat.mod_eq_of_lt h, Nat.xor_assoc, Nat.xor_self, Nat.xor_zero, Nat.mod_eq_of_lt a.isLt]

theorem xorFrom_length (key : List Byte) (data : List Byte) (i : Nat) :
    (xorFrom key i data).length = data.length := by
  induction data generalizing i with
  | nil => rfl
  | cons b rest ih => simp [xorFrom, ih]

theorem xorFrom_getElem? (key : List Byte) (data : List Byte) (i j : Nat) :
    (xorFrom key i data)[j]? =
      (data[j]?).map (fun b => b ^^^ key.getD ((i + j) % key.length) 0) := by
  induction data generalizing i j with
  | nil => simp [xorFrom]
  | cons b rest ih =>
      cases j with
      | zero => simp [xorFrom]
      | succ j =>
          simp only [xorFrom, List.getElem?_cons_succ, ih]
          have : i + 1 + j = i + (j + 1) := by omega
          rw [this]

theorem xorLoop_eq (key : List Byte) (hk : key ≠ []) (data : List Byte) (i : Nat)
    (pre : List Byte) (hpre : pre.length = i) :
    xorLoop key data i (pre ++ make data.length) = Except.ok (pre ++ xorFrom key i data) := by
  induction data generalizing i pre with
  | nil => simp [xorLoop, xorFrom, make]
  | cons b rest ih =>
      have hlen : key.length ≠ 0 := by
        intro h0
        exact hk (List.length_eq_zero.mp h0)
      have hlt : i % key.length < key.length := Nat.mod_lt _ (Nat.pos_of_ne_zero hlen)
      have hidx : index key (i % key.length) = Except.ok (key.getD (i % key.length) 0) := by
        simp [index, List.getElem?_eq_getElem hlt, List.getD_eq_getElem?_getD]
      have hstore : store (pre ++ make (b :: rest).length) i (b ^^^ key.getD (i % key.length) 0)
          = Except.ok ((pre ++ [b ^^^ key.getD (i % key.length) 0]) ++ make rest.length) := by
        simp [store, make, List.replicate_succ, hpre, List.set_append]
      simp only [xorLoop, goMod, if_neg hlen, hidx, hstore]
      rw [ih (i + 1) (pre ++ [b ^^^ key.getD (i % key.length) 0]) (by simp [hpre])]
      simp [xorFrom]

theorem obfuscateIn_eq (key : List Byte) (hk : key ≠ []) (P : GoString) :
    obfuscateAuthKeyToHexIn key P = Except.ok (hex.EncodeToString (xorFrom key 0 P)) := by
  have h := xorLoop_eq key hk P 0 [] rfl
  simp only [List.nil_append] at h
  simp [obfuscateAuthKeyToHexIn, h]

theorem xorKey_ne_nil : xorKey ≠ [] := by
  decide

theorem obfuscate_eq (P : GoString) :
    obfuscateAuthKeyToHex P = Except.ok (hex.EncodeToString (xorFrom xorKey 0 P)) :=
  obfuscateIn_eq xorKey xorKey_ne_nil P

theorem hextable_nibble (n : Fin 16) :
    hex.hextable.getD n.val 0 = Spec.lowerHexDigit n.val := by
  revert n
  decide

theorem fromHexChar_lowerHexDigit (n : Fin 16) :
    hex.fromHexChar (Spec.lowerHexDigit n.val) = some n.val := by
  revert n
  decide

theorem byte_shift (v : Byte) : v.val >>> 4 = v.val / 16 := by
  rw [Nat.shiftRight_eq_div_pow]

theorem byte_mask (v : Byte) : v.val &&& 0x0f = v.val % 16 :=
  Nat.and_pow_two_sub_one_eq_mod v.val 4

/-- The two digits `hex.EncodeToString` writes for a byte are the lowercase
digits of its high and of its low nibble. -/
theorem encode_digits (v : Byte) :
    hex.hextable.getD (v.val >>> 4) 0 = Spec.lowerHexDigit (v.val / 16) ∧
      hex.hextable.getD (v.val &&& 0x0f) 0 = Spec.lowerHexDigit (v.val % 16) := by
  have hv := v.isLt
  rw [byte_shift, byte_mask]
  exact ⟨hextable_nibble ⟨v.val / 16, by omega⟩, hextable_nibble ⟨v.val % 16, by omega⟩⟩

/-- Reading back the two digits written for a byte gives the byte. -/
theorem decode_digits (v : Byte) :
    hex.fromHexChar (hex.hextable.getD (v.val >>> 4) 0) = some (v.val / 16) ∧
      hex.fromHexChar (hex.hextable.getD (v.val &&& 0x0f) 0) = some (v.val % 16) ∧
      (Fin.ofNat (v.val / 16 * 16 + v.val % 16) : Byte) = v := by
  have hv := v.isLt
  rw [(encode_digits v).1, (encode_digits v).2]
  refine ⟨fromHexChar_lowerHexDigit ⟨v.val / 16, by omega⟩,
    fromHexChar_lowerHexDigit ⟨v.val % 16, by omega⟩, ?_⟩
  apply Fin.ext
  show (v.val / 16 * 16 + v.val % 16) % 256 = v.val
  omega

theorem lowerHexDigit_alphabet (n : Fin 16) :
    (0x30 ≤ (Spec.lowerHexDigit n.val).val ∧ (Spec.lowerHexDigit n.val).val ≤ 0x39) ∨
      (0x61 ≤ (Spec.lowerHexDigit n.val).val ∧ (Spec.lowerHexDigit n.val).val ≤ 0x66) := by
  revert n
  decide

theorem encode_length (bs : List Byte) : (hex.EncodeToString bs).length = 2 * bs.length := by
  induction bs with
  | nil => rfl
  | cons v rest ih => simp [hex.EncodeToString, ih]; omega

theorem encode_eq_hexPairs (bs : List Byte) : hex.EncodeToString bs = Spec.hexPairs bs := by
  induction bs with
  | nil => rfl
  | cons v rest ih =>
      have h := encode_digits v
      simp only [hex.EncodeToString, Spec.hexPairs, List.flatMap_cons, h.1, h.2]
      simp only [Spec.hexPairs] at ih
      simp [ih]

theorem decode_encode (bs : List Byte) : hex.DecodeString (hex.EncodeToString bs) = some bs := by
  induction bs with
  | nil => rfl
  | cons v rest ih =>
      obtain ⟨ha, hb, hv⟩ := decode_digits v
      simp only [hex.EncodeToString, hex.DecodeString, ha, hb, ih, hv]

theorem encode_getElem? (bs : List Byte) (i : Nat) :
    (hex.EncodeToString bs)[2 * i]? =
        (bs[i]?).map (fun v => Spec.lowerHexDigit (v.val / 16)) ∧
      (hex.EncodeToString bs)[2 * i + 1]? =
        (bs[i]?).map (fun v => Spec.lowerHexDigit (v.val % 16)) := by
  induction bs generalizing i with
  | nil => simp [hex.EncodeToString]
  | cons v rest ih =>
      have h := encode_digits v
      cases i with
      | zero =>
          simp only [hex.EncodeToString, h.1, h.2]
          simp
      | succ i =>
          have e1 : 2 * (i + 1) = 2 * i + 1 + 1 := by omega
          rw [e1]
          simp only [hex.EncodeToString, List.getElem?_cons_succ]
          exact ih i

theorem xorFrom_xorFrom (key : List Byte) (data : List Byte) (i : Nat) :
    xorFrom key i (xorFrom key i data) = data := by
  induction data generalizing i with
  | nil => rfl
  | cons b rest ih => simp [xorFrom, ih, byte_xor_xor]

theorem key_getElem? (key : List Byte) (hk : key ≠ []) (i : Nat) :
    key[i % key.length]? = some (key.getD (i % key.length) 0) := by
  have hlen : 0 < key.length := List.length_pos.mpr hk
  have hlt : i % key.length < key.length := Nat.mod_lt _ hlen
  simp [List.getElem?_eq_getElem hlt, List.getD_eq_getElem?_getD]

theorem outputAt_eq (key : List Byte) (hk : key ≠ []) (P : List Byte) (i : Nat) :
    Spec.outputAt key P i = (xorFrom key 0 P)[i]? := by
  rw [xorFrom_getElem?, Spec.outputAt, key_getElem? key hk i, Nat.zero_add]
  cases P[i]? <;> rfl

theorem output_eq (key : List Byte) (hk : key ≠ []) (P : List Byte) :
    Spec.output key P = (xorFrom key 0 P).map some := by
  apply List.ext_getElem?
  intro j
  simp only [Spec.output, List.getElem?_map, List.getElem?_range']
  by_cases hj : j < P.length
  · rw [List.getElem?_range hj, Option.map_some', outputAt_eq key hk P j]
    have hj2 : j < (xorFrom key 0 P).length := by rw [xorFrom_length]; exact hj
    rw [List.getElem?_eq_getElem hj2]
    rfl
  · have hj2 : (xorFrom key 0 P).length ≤ j := by rw [xorFrom_length]; omega
    rw [List.getElem?_eq_none (by simpa using hj), List.getElem?_eq_none hj2]
    rfl

theorem xorFrom_getElem (P : List Byte) (j : Nat) (h : j < P.length) :
    (xorFrom xorKey 0 P)[j]? = some (P[j] ^^^ xorKey.getD (j % xorKey.length) 0) := by
  rw [xorFrom_getElem?, List.getElem?_eq_getElem h, Nat.zero_add]
  rfl

theorem store_ok (result : List Byte) (i : Nat) (v : Byte) (h : i < result.length) :
    ∃ result1, store result i v = Except.ok result1 ∧ result1.length = result.length := by
  refine ⟨result.set i v, ?_, List.length_set _ _ _⟩
  simp [store, h]

theorem usage_format :
    bytesOfLiteral "Usage: %s <auth-key>\n" =
      bytesOfLiteral "Usage: " ++ [0x25, 0x73] ++ bytesOfLiteral " <auth-key>\n" := by
  decide

theorem usage_head : bytesOfLiteral "Usage: " = [0x55, 0x73, 0x61, 0x67, 0x65, 0x3a, 0x20] := by
  decide

theorem usage_tail :
    bytesOfLiteral " <auth-key>\n" =
      [0x20, 0x3c, 0x61, 0x75, 0x74, 0x68, 0x2d, 0x6b, 0x65, 0x79, 0x3e, 0x0a] := by
  decide

theorem usage_line (prog : GoString) :
    fmt.Sprintf (bytesOfLiteral "Usage: %s <auth-key>\n") [prog] =
      bytesOfLiteral "Usage: " ++ prog ++ bytesOfLiteral " <auth-key>\n" := by
  rw [usage_format, usage_head, usage_tail]
  simp [fmt.Sprintf]

/-! ## The claims -/

/-- C1: for every input `P` and every index `i < len(P)`, the `i`-th byte
obtained by hex-decoding `obfuscateAuthKeyToHex(P)` is `P[i]` XOR
`xorKey[i mod len(xorKey)]`, where `xorKey` is the 10 bytes of `"747sg^8N0$"`. -/
theorem decoded_byte_is_xor (P : GoString) (i : Nat) (h : i < P.length) :
    xorKey = bytesOfLiteral "747sg^8N0$" ∧ xorKey.length = 10 ∧
      ∃ out dec k, obfuscateAuthKeyToHex P = Except.ok out ∧
        hex.DecodeString out = some dec ∧
        xorKey[i % xorKey.length]? = some k ∧ dec[i]? = some (P[i] ^^^ k) := by
  refine ⟨rfl, xorKey_length, hex.EncodeToString (xorFrom xorKey 0 P), xorFrom xorKey 0 P,
    xorKey.getD (i % xorKey.length) 0, obfuscate_eq P, decode_encode _,
    key_getElem? xorKey xorKey_ne_nil i, ?_⟩
  rw [xorFrom_getElem?, List.getElem?_eq_getElem h, Nat.zero_add]
  rfl

theorem decoded_byte_is_xor_witness :
    1 < ([0x41, 0x42] : GoString).length ∧
      ∃ out dec k, obfuscateAuthKeyToHex [0x41, 0x42] = Except.ok out ∧
        hex.DecodeString out = some dec ∧
        xorKey[1 % xorKey.length]? = some k ∧ dec[1]? = some ((0x42 : Byte) ^^^ k) :=
  ⟨by decide, (decoded_byte_is_xor [0x41, 0x42] 1 (by decide)).2.2⟩

/-- C2: round trip. For every input `P`, the empty one included, hex-decoding
`obfuscateAuthKeyToHex(P)` and XOR-ing byte `i` of the decoded sequence with
`xorKey[i mod len(xorKey)]` again gives exactly the bytes of `P`. -/
theorem round_trip (P : GoString) :
    ∃ out dec, obfuscateAuthKeyToHex P = Except.ok out ∧
      hex.DecodeString out = some dec ∧
      Spec.output xorKey dec = P.map some := by
  refine ⟨hex.EncodeToString (xorFrom xorKey 0 P), xorFrom xorKey 0 P, obfuscate_eq P,
    decode_encode _, ?_⟩
  rw [output_eq xorKey xorKey_ne_nil, xorFrom_xorFrom]

/-- C3: for every input `P`, the length of `obfuscateAuthKeyToHex(P)` is twice
the number of bytes of `P`, hence even; bytes are counted, not code points
(the one-character string `"é"` has two bytes and gives four characters). -/
theorem output_length (P : GoString) :
    (∃ out, obfuscateAuthKeyToHex P = Except.ok out ∧
      out.length = 2 * P.length ∧ Even out.length) ∧
    ("é".length = 1 ∧ (bytesOfLiteral "é").length = 2 ∧
      ∃ out, obfuscateAuthKeyToHex (bytesOfLiteral "é") = Except.ok out ∧ out.length = 4) := by
  refine ⟨⟨_, obfuscate_eq P, ?_, ?_⟩, by decide, by decide, _, obfuscate_eq _, ?_⟩
  · rw [encode_length, xorFrom_length]
  · rw [encode_length, xorFrom_length]
    exact even_two_mul _
  · rw [encode_length, xorFrom_length]
    decide

/-- C4: for every input `P` and index `i < len(P)`, the characters `2i` and
`2i+1` of `obfuscateAuthKeyToHex(P)` are the lowercase hex digit of the high
nibble, then that of the low nibble, of the `i`-th obfuscated byte; the output
is exactly these pairs in byte order, with nothing before, between or after. -/
theorem hex_pairs (P : GoString) (i : Nat) (h : i < P.length) :
    ∃ out obfuscated, obfuscateAuthKeyToHex P = Except.ok out ∧
      Spec.output xorKey P = obfuscated.map some ∧
      out = Spec.hexPairs obfuscated ∧
      ∃ o, obfuscated[i]? = some o ∧
        out[2 * i]? = some (Spec.lowerHexDigit (o.val / 16)) ∧
        out[2 * i + 1]? = some (Spec.lowerHexDigit (o.val % 16)) := by
  have hi : i < (xorFrom xorKey 0 P).length := by rw [xorFrom_length]; exact h
  have hget : (xorFrom xorKey 0 P)[i]? = some ((xorFrom xorKey 0 P)[i]) :=
    List.getElem?_eq_getElem hi
  have hpos := encode_getElem? (xorFrom xorKey 0 P) i
  rw [hget] at hpos
  exact ⟨hex.EncodeToString (xorFrom xorKey 0 P), xorFrom xorKey 0 P, obfuscate_eq P,
    output_eq xorKey xorKey_ne_nil P, encode_eq_hexPairs _, (xorFrom xorKey 0 P)[i], hget,
    hpos.1, hpos.2⟩

theorem hex_pairs_witness :
    1 < ([0x41, 0xff] : GoString).length ∧
      ∃ out obfuscated, obfuscateAuthKeyToHex [0x41, 0xff] = Except.ok out ∧
        Spec.output xorKey [0x41, 0xff] = obfuscated.map some ∧
        out = Spec.hexPairs obfuscated ∧
        ∃ o, obfuscated[1]? = some o ∧
          out[2 * 1]? = some (Spec.lowerHexDigit (o.val / 16)) ∧
          out[2 * 1 + 1]? = some (Spec.lowerHexDigit (o.val % 16)) :=
  ⟨by decide, hex_pairs [0x41, 0xff] 1 (by decide)⟩

/-- C5: for every input `P`, every character of `obfuscateAuthKeyToHex(P)` is
one of `'0'..'9'`, `'a'..'f'`. -/
theorem output_alphabet (P : GoString) :
    ∃ out, obfuscateAuthKeyToHex P = Except.ok out ∧
      ∀ c ∈ out, (0x30 ≤ c.val ∧ c.val ≤ 0x39) ∨ (0x61 ≤ c.val ∧ c.val ≤ 0x66) := by
  refine ⟨_, obfuscate_eq P, ?_⟩
  intro c hc
  rw [encode_eq_hexPairs, Spec.hexPairs, List.mem_flatMap] at hc
  obtain ⟨v, _, hcv⟩ := hc
  have hv := v.isLt
  simp only [List.mem_cons, List.mem_singleton, List.not_mem_nil, or_false] at hcv
  rcases hcv with rfl | rfl
  · exact lowerHexDigit_alphabet ⟨v.val / 16, by omega⟩
  · exact lowerHexDigit_alphabet ⟨v.val % 16, by omega⟩

theorem output_alphabet_witness :
    ∃ out, obfuscateAuthKeyToHex [0x41, 0xff, 0x00] = Except.ok out ∧
      ∀ c ∈ out, (0x30 ≤ c.val ∧ c.val ≤ 0x39) ∨ (0x61 ≤ c.val ∧ c.val ≤ 0x66) :=
  output_alphabet [0x41, 0xff, 0x00]

/-- C6: `obfuscateAuthKeyToHex(P)` is the empty string if and only if `P` is;
in particular `obfuscateAuthKeyToHex("") = ""`. -/
theorem empty_iff_empty (P : GoString) :
    (∃ out, obfuscateAuthKeyToHex P = Except.ok out ∧ (out = [] ↔ P = [])) ∧
      obfuscateAuthKeyToHex (bytesOfLiteral "") = Except.ok (bytesOfLiteral "") := by
  refine ⟨⟨_, obfuscate_eq P, ?_⟩, by decide⟩
  rw [← List.length_eq_zero, encode_length, xorFrom_length, ← List.length_eq_zero]
  omega

/-- C7: the key is the ASCII bytes of `"747sg^8N0$"`, its first byte is 0x37,
and `obfuscateAuthKeyToHex("A")` is `"76"`: 0x41 XOR 0x37 = 0x76 as two
lowercase hex digits. -/
theorem scenario_A :
    xorKey = [0x37, 0x34, 0x37, 0x73, 0x67, 0x5e, 0x38, 0x4e, 0x30, 0x24] ∧
      xorKey = bytesOfLiteral "747sg^8N0$" ∧
      xorKey[0]? = some 0x37 ∧
      bytesOfLiteral "A" = [0x41] ∧
      (0x41 : Byte) ^^^ 0x37 = 0x76 ∧
      bytesOfLiteral "76" = [Spec.lowerHexDigit 7, Spec.lowerHexDigit 6] ∧
      obfuscateAuthKeyToHex (bytesOfLiteral "A") = Except.ok (bytesOfLiteral "76") := by
  decide

/-- C8: key wrap-around. For every input `P` and index `i` with
`i + 10 < len(P)`, the key byte combined with `P[i+10]` is the one combined
with `P[i]`; for a 15-byte input, byte 10 is XORed with key byte 0 (0x37),
byte 11 with key byte 1, and so on, and characters 20 and 21 of the output
encode `P[10]` XOR 0x37. -/
theorem key_wrap_around :
    (∀ (P : GoString) (i : Nat) (h : i + 10 < P.length),
      ∃ out dec k, obfuscateAuthKeyToHex P = Except.ok out ∧
        hex.DecodeString out = some dec ∧
        xorKey[i % xorKey.length]? = some k ∧
        xorKey[(i + 10) % xorKey.length]? = some k ∧
        dec[i]? = some (P[i] ^^^ k) ∧ dec[i + 10]? = some (P[i + 10] ^^^ k)) ∧
    (∀ (P : GoString) (h : P.length = 15),
      ∃ out dec, obfuscateAuthKeyToHex P = Except.ok out ∧
        hex.DecodeString out = some dec ∧
        xorKey[0]? = some 0x37 ∧
        dec[10]? = some (P[10] ^^^ 0x37) ∧
        (∀ (j : Nat) (hj : j < 5), ∃ k, xorKey[j]? = some k ∧
          dec[10 + j]? = some (P[10 + j] ^^^ k)) ∧
        out[20]? = some (Spec.lowerHexDigit ((P[10] ^^^ 0x37).val / 16)) ∧
        out[21]? = some (Spec.lowerHexDigit ((P[10] ^^^ 0x37).val % 16))) := by
  constructor
  · intro P i h
    have hmod : (i + 10) % xorKey.length = i % xorKey.length := by
      rw [xorKey_length, Nat.add_mod_right]
    refine ⟨_, xorFrom xorKey 0 P, xorKey.getD (i % xorKey.length) 0, obfuscate_eq P,
      decode_encode _, key_getElem? xorKey xorKey_ne_nil i, ?_,
      xorFrom_getElem P i (by omega), ?_⟩
    · rw [hmod]
      exact key_getElem? xorKey xorKey_ne_nil i
    · rw [xorFrom_getElem P (i + 10) h, hmod]
  · intro P h
    have h10 : (xorFrom xorKey 0 P)[10]? = some (P[10] ^^^ 0x37) :=
      xorFrom_getElem P 10 (by omega)
    have hpos := encode_getElem? (xorFrom xorKey 0 P) 10
    rw [h10] at hpos
    refine ⟨_, xorFrom xorKey 0 P, obfuscate_eq P, decode_encode _, by decide, h10, ?_,
      hpos.1, hpos.2⟩
    intro j hj
    have hmod : (10 + j) % xorKey.length = j := by
      rw [xorKey_length, Nat.add_mod_left, Nat.mod_eq_of_lt (by omega)]
    have hk := key_getElem? xorKey xorKey_ne_nil (10 + j)
    rw [hmod] at hk
    refine ⟨xorKey.getD j 0, hk, ?_⟩
    rw [xorFrom_getElem P (10 + j) (by omega)]
    simp only [hmod]

theorem key_wrap_around_witness :
    (∃ out dec k, obfuscateAuthKeyToHex (bytesOfLiteral "tskey-auth-kA1b") = Except.ok out ∧
        hex.DecodeString out = some dec ∧
        xorKey[2 % xorKey.length]? = some k ∧
        xorKey[(2 + 10) % xorKey.length]? = some k ∧
        dec[2]? = some ((0x6b : Byte) ^^^ k) ∧ dec[2 + 10]? = some ((0x41 : Byte) ^^^ k)) ∧
    (∃ out dec, obfuscateAuthKeyToHex (bytesOfLiteral "tskey-auth-kA1b") = Except.ok out ∧
        hex.DecodeString out = some dec ∧
        dec[10]? = some ((0x2d : Byte) ^^^ 0x37) ∧
        out[20]? = some 0x31 ∧ out[21]? = some 0x61) := by
  have h1 := key_wrap_around.1 (bytesOfLiteral "tskey-auth-kA1b") 2 (by decide)
  have h2 := key_wrap_around.2 (bytesOfLiteral "tskey-auth-kA1b") (by decide)
  refine ⟨h1, ?_⟩
  obtain ⟨out, dec, ho, hd, _, h10, _, h20, h21⟩ := h2
  exact ⟨out, dec, ho, hd, h10, h20, h21⟩

/-- C9: `obfuscateAuthKeyToHex` is total and never panics: for every input the
modulus `len(xorKey)` is not zero, the index `i % len(xorKey)` is within
`xorKey`, every write `result[i]` is within `result`, the loop ends and a
string is returned. -/
theorem total_no_panic (P : GoString) :
    xorKey.length ≠ 0 ∧
      (∀ i : Nat, ∃ m k, goMod i xorKey.length = Except.ok m ∧ m < xorKey.length ∧
        index xorKey m = Except.ok k) ∧
      (make P.length).length = P.length ∧
      (∀ (i : Nat) (result : List Byte) (v : Byte), i < P.length → result.length = P.length →
        ∃ result1, store result i v = Except.ok result1 ∧ result1.length = P.length) ∧
      (∃ result, xorLoop xorKey P 0 (make P.length) = Except.ok result ∧
        result.length = P.length) ∧
      ∃ out, obfuscateAuthKeyToHex P = Except.ok out := by
  refine ⟨by decide, ?_, by simp [make], ?_, ?_, _, obfuscate_eq P⟩
  · intro i
    have hlt : i % xorKey.length < xorKey.length := Nat.mod_lt _ (by decide)
    refine ⟨i % xorKey.length, xorKey.getD (i % xorKey.length) 0, ?_, hlt, ?_⟩
    · simp [goMod, xorKey_length]
    · simp only [index, key_getElem? xorKey xorKey_ne_nil i]
  · intro i result v hi hlen
    obtain ⟨r, hr, hl⟩ := store_ok result i v (by omega)
    exact ⟨r, hr, by omega⟩
  · have h := xorLoop_eq xorKey xorKey_ne_nil P 0 [] rfl
    simp only [List.nil_append] at h
    exact ⟨_, h, xorFrom_length _ _ _⟩

theorem total_no_panic_witness :
    (∃ result1, store [0, 0, 0] 2 0x76 = Except.ok result1 ∧ result1.length = 3) ∧
      ∃ out, obfuscateAuthKeyToHex [0x41, 0x42, 0x43] = Except.ok out :=
  ⟨(total_no_panic [0x41, 0x42, 0x43]).2.2.2.1 2 [0, 0, 0] 0x76 (by decide) (by decide),
    (total_no_panic [0x41, 0x42, 0x43]).2.2.2.2.2⟩

/-- C10: usage error. When the number of positional arguments is not one
(zero, or more than one), `main` writes exactly the line
`Usage: <os.Args[0]> <auth-key>` and a newline to standard error, writes
nothing to standard output, does not call the transform, and exits with
code 1. -/
theorem usage_error (prog : GoString) (args : List GoString) (h : args.length ≠ 1) :
    main (prog :: args) = Except.ok
      { stdout := [],
        stderr := bytesOfLiteral "Usage: " ++ prog ++ bytesOfLiteral " <auth-key>\n",
        calls := [],
        exitCode := 1 } := by
  have hlen : (prog :: args).length ≠ 2 := by
    simp only [List.length_cons]
    omega
  simp only [main, if_pos hlen, index, List.getElem?_cons_zero, usage_line]

theorem usage_error_witness :
    (([] : List GoString).length ≠ 1 ∧
      main [bytesOfLiteral "obf"] = Except.ok
        { stdout := [],
          stderr := bytesOfLiteral "Usage: obf <auth-key>\n",
          calls := [],
          exitCode := 1 }) ∧
    ([bytesOfLiteral "a", bytesOfLiteral "b"].length ≠ 1 ∧
      main [bytesOfLiteral "obf", bytesOfLiteral "a", bytesOfLiteral "b"] = Except.ok
        { stdout := [],
          stderr := bytesOfLiteral "Usage: obf <auth-key>\n",
          calls := [],
          exitCode := 1 }) :=
  ⟨⟨by decide, usage_error (bytesOfLiteral "obf") [] (by decide)⟩,
    ⟨by decide, usage_error (bytesOfLiteral "obf") [bytesOfLiteral "a", bytesOfLiteral "b"]
      (by decide)⟩⟩

/-! ## Lemmas on calls in sequence -/

theorem rangeLoop_eq (data : List Byte) (i : Nat) (s : Vars) :
    rangeLoop data i s =
      match xorLoop s.xorKey data i s.result with
      | Except.error e => Except.error e
      | Except.ok r => Except.ok { s with result := r } := by
  induction data generalizing i s with
  | nil => simp [rangeLoop, xorLoop]
  | cons b rest ih =>
      simp only [rangeLoop, loopBody, xorLoop]
      cases goMod i s.xorKey.length with
      | error e => rfl
      | ok m =>
          simp only []
          cases index s.xorKey m with
          | error e => rfl
          | ok k =>
              simp only []
              cases store s.result i (b ^^^ k) with
              | error e => rfl
              | ok r1 =>
                  simp only []
                  rw [ih]

theorem obfuscateSt_eq (g : Globals) (key : GoString) :
    obfuscateAuthKeyToHexSt g key =
      match obfuscateAuthKeyToHexIn g.xorKey key with
      | Except.error e => Except.error e
      | Except.ok out => Except.ok (out, g) := by
  simp only [obfuscateAuthKeyToHexSt, obfuscateAuthKeyToHexIn, rangeLoop_eq]
  cases xorLoop g.xorKey key 0 (make key.length) with
  | error e => rfl
  | ok r => rfl

theorem obfuscateSt_ok (g : Globals) (hg : g.xorKey ≠ []) (key : GoString) :
    obfuscateAuthKeyToHexSt g key =
      Except.ok (hex.EncodeToString (xorFrom g.xorKey 0 key), g) := by
  rw [obfuscateSt_eq, obfuscateIn_eq g.xorKey hg key]

theorem runCalls_ok (g : Globals) (hg : g.xorKey ≠ []) (keys : List GoString) :
    runCalls g keys =
      Except.ok (keys.map (fun key => hex.EncodeToString (xorFrom g.xorKey 0 key)), g) := by
  induction keys with
  | nil => rfl
  | cons key rest ih => simp only [runCalls, obfuscateSt_ok g hg, ih, List.map_cons]

theorem newline_not_hex (P : GoString) :
    (0x0a : Byte) ∉ hex.EncodeToString (xorFrom xorKey 0 P) := by
  intro hc
  rw [encode_eq_hexPairs, Spec.hexPairs, List.mem_flatMap] at hc
  obtain ⟨v, _, hcv⟩ := hc
  have hv := v.isLt
  simp only [List.mem_cons, List.mem_singleton, List.not_mem_nil, or_false] at hcv
  rcases hcv with h | h
  · have := lowerHexDigit_alphabet ⟨v.val / 16, by omega⟩
    rw [← h] at this
    revert this
    decide
  · have := lowerHexDigit_alphabet ⟨v.val % 16, by omega⟩
    rw [← h] at this
    revert this
    decide

/-! ## The claims, continued -/

/-- C11: CLI success. With exactly one positional argument `a`, `main` writes
to standard output exactly `obfuscateAuthKeyToHex(a)`, with no trailing
newline and nothing else, writes nothing to standard error, and ends with
exit code 0. -/
theorem cli_success (prog a : GoString) :
    ∃ out, obfuscateAuthKeyToHex a = Except.ok out ∧
      main [prog, a] = Except.ok
        { stdout := out, stderr := [], calls := [a], exitCode := 0 } ∧
      (0x0a : Byte) ∉ out := by
  refine ⟨_, obfuscate_eq a, ?_, newline_not_hex a⟩
  have hlen : ¬ ([prog, a].length ≠ 2) := by simp
  simp only [main, if_neg hlen, index, List.getElem?_cons_succ, List.getElem?_cons_zero,
    obfuscate_eq a]

/-- C12, as the code has it: the key is not checked at initialization, which
succeeds for every key literal. With an empty key the failure is at call
time: a call of `obfuscateAuthKeyToHex` on a non-empty input panics with a
division by zero at `i % len(xorKey)`, a call on the empty input returns the
empty string. The literal of the source gives a key of 10 bytes. -/
theorem empty_key_fails_in_call (lit : String) (P : GoString)
    (hlit : bytesOfLiteral lit = []) (hP : P ≠ []) :
    (∃ g, initPackage lit = Except.ok g ∧ g.xorKey = [] ∧
      obfuscateAuthKeyToHexSt g P = Except.error Panic.divideByZero ∧
      obfuscateAuthKeyToHexSt g [] = Except.ok ([], g)) ∧
    (initPackage "747sg^8N0$" = Except.ok initGlobals ∧ initGlobals.xorKey.length = 10) := by
  refine ⟨⟨{ xorKey := [] }, ?_, rfl, ?_, rfl⟩, rfl, xorKey_length⟩
  · simp only [initPackage, hlit]
  · cases P with
    | nil => exact absurd rfl hP
    | cons b rest => rfl

theorem empty_key_fails_in_call_witness :
    (bytesOfLiteral "" = [] ∧ bytesOfLiteral "A" ≠ []) ∧
    ∃ g, initPackage "" = Except.ok g ∧ g.xorKey = [] ∧
      obfuscateAuthKeyToHexSt g (bytesOfLiteral "A") = Except.error Panic.divideByZero ∧
      obfuscateAuthKeyToHexSt g [] = Except.ok ([], g) :=
  ⟨⟨by decide, by decide⟩,
    (empty_key_fails_in_call "" (bytesOfLiteral "A") (by decide) (by decide)).1⟩

/-- C12 as stated fails: with the key configured as the empty byte sequence,
initialization does not fail (so it is not true that it rejects the key), and
the first failure is the division by zero inside the call on the input `"A"`. -/
theorem empty_key_not_rejected_at_init :
    bytesOfLiteral "" = [] ∧
      ¬ (∃ e, initPackage "" = Except.error e) ∧
      initPackage "" = Except.ok { xorKey := [] } ∧
      obfuscateAuthKeyToHexSt { xorKey := [] } (bytesOfLiteral "A") =
        Except.error Panic.divideByZero ∧
      obfuscateAuthKeyToHexIn [] (bytesOfLiteral "A") = Except.error Panic.divideByZero := by
  refine ⟨by decide, ?_, rfl, by decide, by decide⟩
  rintro ⟨e, he⟩
  simp [initPackage] at he

/-- C13: key invariant and frame. In the initial state `xorKey` is the 10
bytes of `"747sg^8N0$"`, so its length is at least 1; a call of
`obfuscateAuthKeyToHex` in a state with a non-empty key returns and leaves
the package state byte for byte as it was; hence after any sequence of calls
from the initial state `xorKey` is unchanged and its length is at least 1. -/
theorem key_invariant (keys : List GoString) :
    (initPackage "747sg^8N0$" = Except.ok initGlobals ∧
      initGlobals.xorKey = bytesOfLiteral "747sg^8N0$" ∧
      initGlobals.xorKey.length = 10 ∧ 1 ≤ initGlobals.xorKey.length) ∧
    (∀ (g : Globals) (key : GoString), 1 ≤ g.xorKey.length →
      ∃ out, obfuscateAuthKeyToHexSt g key = Except.ok (out, g)) ∧
    (∀ (g g1 : Globals) (key out : GoString),
      obfuscateAuthKeyToHexSt g key = Except.ok (out, g1) → g1.xorKey = g.xorKey) ∧
    ∃ outs g, runCalls initGlobals keys = Except.ok (outs, g) ∧
      g.xorKey = bytesOfLiteral "747sg^8N0$" ∧ 1 ≤ g.xorKey.length := by
  refine ⟨⟨rfl, rfl, xorKey_length, by decide⟩, ?_, ?_, ?_⟩
  · intro g key hg
    have hne : g.xorKey ≠ [] := by
      intro h0
      rw [h0] at hg
      exact absurd hg (by decide)
    exact ⟨_, obfuscateSt_ok g hne key⟩
  · intro g g1 key out h
    rw [obfuscateSt_eq] at h
    cases hin : obfuscateAuthKeyToHexIn g.xorKey key with
    | error e =>
        rw [hin] at h
        cases h
    | ok o =>
        rw [hin] at h
        cases h
        rfl
  · exact ⟨_, initGlobals, runCalls_ok initGlobals xorKey_ne_nil keys, rfl, by decide⟩

theorem key_invariant_witness :
    (1 ≤ initGlobals.xorKey.length ∧
      ∃ out, obfuscateAuthKeyToHexSt initGlobals (bytesOfLiteral "A") =
        Except.ok (out, initGlobals)) ∧
    ∃ outs g, runCalls initGlobals [bytesOfLiteral "A", [], bytesOfLiteral "tskey"] =
        Except.ok (outs, g) ∧
      g.xorKey = bytesOfLiteral "747sg^8N0$" ∧ 1 ≤ g.xorKey.length :=
  ⟨⟨by decide,
      (key_invariant []).2.1 initGlobals (bytesOfLiteral "A") (by decide)⟩,
    (key_invariant [bytesOfLiteral "A", [], bytesOfLiteral "tskey"]).2.2.2⟩

/-- C14: determinism and statelessness. For every input `P`, two calls of
`obfuscateAuthKeyToHex(P)` return the same string whatever calls were made
before and between them, and that string is the value at `P` of a function of
the bytes of `P` and the fixed key alone. -/
theorem deterministic (P : GoString) (before between : List GoString) :
    ∃ out outs1 outs2 g,
      runCalls initGlobals (before ++ [P] ++ between ++ [P]) =
        Except.ok (outs1 ++ [out] ++ outs2 ++ [out], g) ∧
      outs1.length = before.length ∧ outs2.length = between.length ∧
      obfuscateAuthKeyToHex P = Except.ok out ∧
      ∃ obfuscated, Spec.output xorKey P = obfuscated.map some ∧
        out = Spec.hexPairs obfuscated := by
  refine ⟨hex.EncodeToString (xorFrom xorKey 0 P),
    before.map (fun key => hex.EncodeToString (xorFrom xorKey 0 key)),
    between.map (fun key => hex.EncodeToString (xorFrom xorKey 0 key)),
    initGlobals, ?_, by simp, by simp, obfuscate_eq P, xorFrom xorKey 0 P,
    output_eq xorKey xorKey_ne_nil P, encode_eq_hexPairs _⟩
  rw [runCalls_ok initGlobals xorKey_ne_nil]
  simp [initGlobals]

/-! ## Lemmas on two inputs -/

theorem xorFrom_append (key : List Byte) (P Q : List Byte) (i : Nat) :
    xorFrom key i (P ++ Q) = xorFrom key i P ++ xorFrom key (i + P.length) Q := by
  induction P generalizing i with
  | nil => simp [xorFrom]
  | cons b rest ih =>
      have e : i + 1 + rest.length = i + (b :: rest).length := by
        simp only [List.length_cons]
        omega
      show xorFrom key i (b :: (rest ++ Q)) = _
      rw [xorFrom, ih (i + 1), e]
      rfl

theorem xorFrom_congr (key : List Byte) (Q : List Byte) (i j : Nat)
    (h : i % key.length = j % key.length) : xorFrom key i Q = xorFrom key j Q := by
  induction Q generalizing i j with
  | nil => rfl
  | cons b rest ih =>
      have h1 : (i + 1) % key.length = (j + 1) % key.length := by
        rw [Nat.add_mod i, Nat.add_mod j, h]
      simp only [xorFrom, h, ih (i + 1) (j + 1) h1]

theorem xorFrom_injective (key : List Byte) (i : Nat) (P Q : List Byte)
    (h : xorFrom key i P = xorFrom key i Q) : P = Q := by
  rw [← xorFrom_xorFrom key P i, h, xorFrom_xorFrom]

theorem encode_append (a b : List Byte) :
    hex.EncodeToString (a ++ b) = hex.EncodeToString a ++ hex.EncodeToString b := by
  induction a with
  | nil => rfl
  | cons v rest ih => simp [hex.EncodeToString, ih]

theorem encode_injective (a b : List Byte)
    (h : hex.EncodeToString a = hex.EncodeToString b) : a = b := by
  have h1 := decode_encode a
  rw [h, decode_encode b] at h1
  exact (Option.some.inj h1).symm

theorem byte_xor_right_injective (a b k : Byte) (h : a ^^^ k = b ^^^ k) : a = b := by
  rw [← byte_xor_xor a k, h, byte_xor_xor]

theorem byte_xor_cancel (a b k : Byte) : (a ^^^ k) ^^^ (b ^^^ k) = a ^^^ b := by
  apply Fin.ext
  have h1 : a.val ^^^ k.val < 256 := @Nat.xor_lt_two_pow _ _ 8 a.isLt k.isLt
  have h2 : b.val ^^^ k.val < 256 := @Nat.xor_lt_two_pow _ _ 8 b.isLt k.isLt
  show ((a.val ^^^ k.val) % 256 ^^^ (b.val ^^^ k.val) % 256) % 256 = (a.val ^^^ b.val) % 256
  rw [Nat.mod_eq_of_lt h1, Nat.mod_eq_of_lt h2, Nat.xor_comm b.val k.val, Nat.xor_assoc,
    ← Nat.xor_assoc k.val, Nat.xor_self, Nat.zero_xor]

theorem lowerHexDigit_injective (m n : Fin 16)
    (h : Spec.lowerHexDigit m.val = Spec.lowerHexDigit n.val) : m = n := by
  revert m n
  decide

/-! ## The claims on two inputs -/

/-- C15: injectivity. If `obfuscateAuthKeyToHex(P)` and
`obfuscateAuthKeyToHex(Q)` are the same string, `P` and `Q` have the same
bytes: no two distinct credentials obfuscate to the same hex string. -/
theorem obfuscate_injective (P Q : GoString)
    (h : obfuscateAuthKeyToHex P = obfuscateAuthKeyToHex Q) : P = Q := by
  rw [obfuscate_eq P, obfuscate_eq Q] at h
  exact xorFrom_injective xorKey 0 P Q (encode_injective _ _ (Except.ok.inj h))

theorem obfuscate_injective_witness :
    obfuscateAuthKeyToHex (bytesOfLiteral "A") = obfuscateAuthKeyToHex [0x41] ∧
      bytesOfLiteral "A" = [0x41] :=
  ⟨by decide, obfuscate_injective (bytesOfLiteral "A") [0x41] (by decide)⟩

/-- C16: for all inputs `P` and `Q`, `obfuscateAuthKeyToHex(P)` is the
beginning of `obfuscateAuthKeyToHex(P ++ Q)`, namely its first `2*len(P)`
characters: appending bytes to the input leaves the characters already
produced as they were. -/
theorem output_extends (P Q : GoString) :
    ∃ outP outPQ, obfuscateAuthKeyToHex P = Except.ok outP ∧
      obfuscateAuthKeyToHex (P ++ Q) = Except.ok outPQ ∧
      outP <+: outPQ ∧ outPQ.take (2 * P.length) = outP := by
  refine ⟨_, _, obfuscate_eq P, obfuscate_eq (P ++ Q), ?_, ?_⟩
  · rw [xorFrom_append, encode_append]
    exact List.prefix_append _ _
  · rw [xorFrom_append, encode_append]
    have hl : (hex.EncodeToString (xorFrom xorKey 0 P)).length = 2 * P.length := by
      rw [encode_length, xorFrom_length]
    rw [← hl, List.take_left]

/-- C17: when `len(P)` is a multiple of 10, the key length,
`obfuscateAuthKeyToHex(P ++ Q)` is `obfuscateAuthKeyToHex(P)` followed by
`obfuscateAuthKeyToHex(Q)`; for `P = "A"`, `Q = "A"`, where `len(P)` is not a
multiple of 10, the result is `"7675"` and not `"7676"`. -/
theorem concat_key_aligned :
    (∀ (P Q : GoString), P.length % 10 = 0 →
      ∃ outP outQ, obfuscateAuthKeyToHex P = Except.ok outP ∧
        obfuscateAuthKeyToHex Q = Except.ok outQ ∧
        obfuscateAuthKeyToHex (P ++ Q) = Except.ok (outP ++ outQ)) ∧
    ((bytesOfLiteral "A").length % 10 ≠ 0 ∧
      obfuscateAuthKeyToHex (bytesOfLiteral "A" ++ bytesOfLiteral "A") =
        Except.ok (bytesOfLiteral "7675") ∧
      obfuscateAuthKeyToHex (bytesOfLiteral "A") = Except.ok (bytesOfLiteral "76") ∧
      bytesOfLiteral "76" ++ bytesOfLiteral "76" = bytesOfLiteral "7676" ∧
      bytesOfLiteral "7675" ≠ bytesOfLiteral "7676") := by
  refine ⟨?_, by decide⟩
  intro P Q h
  refine ⟨_, _, obfuscate_eq P, obfuscate_eq Q, ?_⟩
  rw [obfuscate_eq (P ++ Q), xorFrom_append, encode_append]
  have hmod : (0 + P.length) % xorKey.length = 0 % xorKey.length := by
    rw [Nat.zero_add, xorKey_length, h]
  rw [xorFrom_congr xorKey Q (0 + P.length) 0 hmod]

theorem concat_key_aligned_witness :
    (bytesOfLiteral "0123456789").length % 10 = 0 ∧
      ∃ outP outQ, obfuscateAuthKeyToHex (bytesOfLiteral "0123456789") = Except.ok outP ∧
        obfuscateAuthKeyToHex (bytesOfLiteral "A") = Except.ok outQ ∧
        obfuscateAuthKeyToHex (bytesOfLiteral "0123456789" ++ bytesOfLiteral "A") =
          Except.ok (outP ++ outQ) :=
  ⟨by decide,
    concat_key_aligned.1 (bytesOfLiteral "0123456789") (bytesOfLiteral "A") (by decide)⟩

/-- C18: key cancellation. For inputs `P`, `Q` and an index `i` below both
lengths, the XOR of the `i`-th decoded bytes of the two outputs is
`P[i]` XOR `Q[i]`; the two outputs agree in characters `2i` and `2i+1`
exactly when `P[i] = Q[i]`. -/
theorem key_cancels (P Q : GoString) (i : Nat) (h : i < min P.length Q.length) :
    ∃ outP outQ decP decQ dP dQ,
      obfuscateAuthKeyToHex P = Except.ok outP ∧ obfuscateAuthKeyToHex Q = Except.ok outQ ∧
      hex.DecodeString outP = some decP ∧ hex.DecodeString outQ = some decQ ∧
      decP[i]? = some dP ∧ decQ[i]? = some dQ ∧
      dP ^^^ dQ = P[i] ^^^ Q[i] ∧
      ((outP[2 * i]? = outQ[2 * i]? ∧ outP[2 * i + 1]? = outQ[2 * i + 1]?) ↔ P[i] = Q[i]) := by
  have hP : i < P.length := by omega
  have hQ : i < Q.length := by omega
  have hdP := xorFrom_getElem P i hP
  have hdQ := xorFrom_getElem Q i hQ
  have hcP := encode_getElem? (xorFrom xorKey 0 P) i
  have hcQ := encode_getElem? (xorFrom xorKey 0 Q) i
  rw [hdP] at hcP
  rw [hdQ] at hcQ
  refine ⟨_, _, _, _, _, _, obfuscate_eq P, obfuscate_eq Q, decode_encode _, decode_encode _,
    hdP, hdQ, byte_xor_cancel _ _ _, ?_⟩
  rw [hcP.1, hcP.2, hcQ.1, hcQ.2]
  simp only [Option.map_some', Option.some.injEq]
  constructor
  · rintro ⟨hhi, hlo⟩
    have ha := (P[i] ^^^ xorKey.getD (i % xorKey.length) 0).isLt
    have hb := (Q[i] ^^^ xorKey.getD (i % xorKey.length) 0).isLt
    have e1 := congrArg Fin.val (lowerHexDigit_injective ⟨_, by omega⟩ ⟨_, by omega⟩ hhi)
    have e2 := congrArg Fin.val (lowerHexDigit_injective
      ⟨(P[i] ^^^ xorKey.getD (i % xorKey.length) 0).val % 16, by omega⟩
      ⟨(Q[i] ^^^ xorKey.getD (i % xorKey.length) 0).val % 16, by omega⟩ hlo)
    simp only at e1 e2
    apply byte_xor_right_injective _ _ (xorKey.getD (i % xorKey.length) 0)
    apply Fin.ext
    omega
  · intro e
    rw [e]
    exact ⟨rfl, rfl⟩

theorem key_cancels_witness :
    2 < min (bytesOfLiteral "tskey-A").length (bytesOfLiteral "tske").length ∧
      ∃ outP outQ decP decQ dP dQ,
        obfuscateAuthKeyToHex (bytesOfLiteral "tskey-A") = Except.ok outP ∧
        obfuscateAuthKeyToHex (bytesOfLiteral "tske") = Except.ok outQ ∧
        hex.DecodeString outP = some decP ∧ hex.DecodeString outQ = some decQ ∧
        decP[2]? = some dP ∧ decQ[2]? = some dQ ∧
        dP ^^^ dQ = (0x6b : Byte) ^^^ 0x6b ∧
        ((outP[2 * 2]? = outQ[2 * 2]? ∧ outP[2 * 2 + 1]? = outQ[2 * 2 + 1]?) ↔
          (0x6b : Byte) = 0x6b) :=
  ⟨by decide, key_cancels (bytesOfLiteral "tskey-A") (bytesOfLiteral "tske") 2 (by decide)⟩

/-- C19: the string-to-string function is not its own inverse. For every
input `P`, `obfuscateAuthKeyToHex(obfuscateAuthKeyToHex(P))` has length
`4*len(P)`, so it differs from `P` when `P` is not empty and equals `P` only
for the empty input; `"A"` gives `"76"` and `"76"` gives `"0002"`. -/
theorem not_own_inverse (P : GoString) :
    (∃ out1 out2, obfuscateAuthKeyToHex P = Except.ok out1 ∧
      obfuscateAuthKeyToHex out1 = Except.ok out2 ∧
      out2.length = 4 * P.length ∧ (out2 = P ↔ P = [])) ∧
    (obfuscateAuthKeyToHex (bytesOfLiteral "A") = Except.ok (bytesOfLiteral "76") ∧
      obfuscateAuthKeyToHex (bytesOfLiteral "76") = Except.ok (bytesOfLiteral "0002") ∧
      obfuscateAuthKeyToHex [] = Except.ok []) := by
  refine ⟨⟨_, _, obfuscate_eq P, obfuscate_eq _, ?_, ?_⟩, by decide⟩
  · rw [encode_length, xorFrom_length, encode_length, xorFrom_length]
    omega
  · have hl : (hex.EncodeToString (xorFrom xorKey 0
        (hex.EncodeToString (xorFrom xorKey 0 P)))).length = 4 * P.length := by
      rw [encode_length, xorFrom_length, encode_length, xorFrom_length]
      omega
    constructor
    · intro e
      rw [e] at hl
      exact List.length_eq_zero.mp (by omega)
    · intro e
      subst e
      rfl

end SockTail
